import Mathlib

/-!
Shallow embedding of the tensorflow-rl excerpt (sequence-decoder A3C learner,
Atari environment wrapper, network layer builders, statistics utilities),
together with theorems settling the specification's claims about it.

Floating-point arithmetic of the source is modelled over `ℚ` (exact reward and
return bookkeeping) and `ℝ` (logarithms and square roots); stateful loops are
modelled as structural recursions threading the mutated variables explicitly.
-/

namespace TRL

/-! ## utils/stats.py -/

/-- Embedding of `kl_divergence(P, Q)` from utils/stats.py:
`eps = 1e-10; (P * np.log((P + eps) / (Q + eps))).sum()`,
with arrays modelled as lists of reals combined elementwise. -/
noncomputable def kl_divergence (P Q : List ℝ) : ℝ :=
  (List.zipWith (fun p q => p * Real.log ((p + 1e-10) / (q + 1e-10))) P Q).sum

/-- Embedding of `jenson_shannon_divergence(P, Q)` from utils/stats.py:
`M = 0.5 * (P + Q); 0.5 * (kl_divergence(P, M) + kl_divergence(Q, M))`. -/
noncomputable def jenson_shannon_divergence (P Q : List ℝ) : ℝ :=
  let M := List.zipWith (fun p q => 0.5 * (p + q)) P Q
  0.5 * (kl_divergence P M + kl_divergence Q M)

/-! ## networks/layers.py -/

/-- Embedding of the bound computed in `conv_weight_variable(shape, name)` for
the shape `[size, size, channels, filters]` that `conv2d` always passes:
`receptive_field_size = np.prod(shape[:2])`, `fan_in = shape[-2] * rfs`,
`fan_out = shape[-1] * rfs`, `d = 2*np.sqrt(6. / (fan_in + fan_out))`. -/
noncomputable def conv_weight_bound (size channels filters : ℕ) : ℝ :=
  let receptive_field_size := size * size
  let fan_in := channels * receptive_field_size
  let fan_out := filters * receptive_field_size
  2 * Real.sqrt (6 / (fan_in + fan_out))

/-- Embedding of the bound computed in `fc_weight_variable(shape, name)`:
`fan_in = shape[0]`, `fan_out = shape[1]`, `d = 2*np.sqrt(6. / (fan_in + fan_out))`. -/
noncomputable def fc_weight_bound (input_dim output_dim : ℕ) : ℝ :=
  2 * Real.sqrt (6 / (input_dim + output_dim))

/-- Model of one element drawn by `tf.random_uniform(shape, minval=-d, maxval=d)`:
the element at quantile `u ∈ [0, 1]` of the uniform distribution on the
requested interval, namely `minval + u * (maxval - minval)`. -/
def uniform_sample (d u : ℝ) : ℝ := (-d) + u * (d - (-d))

/-! ## environments/atari_environment.py -/

/-- The action-space kinds the module-level helper `get_actions` dispatches on:
`gym.spaces.Discrete`, `gym.spaces.Box`, or anything else (which raises). -/
inductive ActionSpace where
  | discrete (n : ℕ)
  | box (shape : List ℕ)
  | other (typeName : String)

/-- The two games treated specially: `['Pong-v0', 'Breakout-v0']`. -/
def threeActionGames : List String := ["Pong-v0", "Breakout-v0"]

/-- Embedding of the module-level `get_actions(game)`: the number of actions is
the discrete count `n`, or `np.prod(shape)` for a box space, or a raised error
for any other space kind; the count is then overridden to 3 for the two games
in `threeActionGames`. -/
def get_actions (game : String) (space : ActionSpace) : Except String ℕ :=
  match space with
  | ActionSpace.discrete n =>
      Except.ok (if game ∈ threeActionGames then 3 else n)
  | ActionSpace.box shape =>
      Except.ok (if game ∈ threeActionGames then 3 else shape.prod)
  | ActionSpace.other t =>
      Except.error ("Unsupported Action Space " ++ t)

/-- Embedding of the `gym_actions` computation in `AtariEnvironment.__init__`:
`range(num_actions)`, replaced by `[1, 2, 3]` when the spec id is `Pong-v0` or
`Breakout-v0`. -/
def gym_actions (spec_id : String) (num_actions : ℕ) : List ℕ :=
  if spec_id ∈ threeActionGames then [1, 2, 3] else List.range num_actions

/-- Embedding of `AtariEnvironment.get_initial_state` in non-RGB mode with
history length `h`: the state is `np.stack([x_t]*h, axis=-1)` (its slices along
the last axis are `h` copies of the first preprocessed frame `x_t`) and the
cleared `state_buffer` (a deque of maxlen `h-1`) is filled with `h-1` copies of
`x_t`.  A state is modelled as the list of its slices along the last axis. -/
def get_initial_state {α : Type} (h : ℕ) (x : α) : List α × List α :=
  (List.replicate h x, List.replicate (h - 1) x)

/-- Embedding of `AtariEnvironment.get_state(frame)` in non-RGB mode: slice `i`
of the result is `state_buffer[i]` for `i < h - 1` and slice `h-1` is the new
frame.  (With the class invariant that the buffer holds exactly `h-1` frames,
this is the buffer contents followed by the new frame.) -/
def get_state {α : Type} (h : ℕ) (buf : List α) (frame : α) : List α :=
  buf.take (h - 1) ++ [frame]

/-- Model of `collections.deque(maxlen=maxlen).append(x)`: the new element is
appended on the right and the leftmost elements are dropped so that at most
`maxlen` remain. -/
def deque_push {α : Type} (maxlen : ℕ) (buf : List α) (x : α) : List α :=
  let b := buf ++ [x]
  b.drop (b.length - maxlen)

/-- Embedding of `AtariEnvironment.next(action)` restricted to its state/buffer
effect in non-RGB mode: build the returned state from the buffer and the newly
preprocessed frame, then push the frame into the buffer. -/
def env_next {α : Type} (h : ℕ) (buf : List α) (frame : α) : List α × List α :=
  (get_state h buf frame, deque_push (h - 1) buf frame)

/-- The (state, buffer) pair after `get_initial_state()` followed by `k` calls
of `next`, where `x0` is the first preprocessed frame and `f (k+1)` is the
preprocessed frame produced by the `(k+1)`-th step of the underlying emulator. -/
def env_trace {α : Type} (h : ℕ) (x0 : α) (f : ℕ → α) : ℕ → List α × List α
  | 0 => get_initial_state h x0
  | k + 1 => env_next h (env_trace h x0 f k).2 (f (k + 1))

/-! ## sequence_decoder_actor_learner.py: the stuck-agent guard in `_run` -/

/-- The mutable worker state read and written by the guard at the bottom of
`_run` (lines 219-245).  The Python ints are modelled as `ℤ`. -/
structure RunState where
  local_step : ℤ
  steps_at_last_reward : ℤ
  episode_over : Bool
  reset_game : Bool

/-- Embedding of the stuck-agent guard in `_run`: if more than 5000 local steps
passed since the last non-zero reward, or the emulator reports 0 lives and the
game is not in `ONE_LIFE_GAMES` (membership abstracted as `in_one_life_games`,
the set itself living in the out-of-scope base class), force the episode over
and request a game reset. -/
def stuck_guard (lives : ℕ) (in_one_life_games : Bool) (st : RunState) : RunState :=
  if 5000 < st.local_step - st.steps_at_last_reward
      ∨ (lives = 0 ∧ in_one_life_games = false) then
    { st with
      steps_at_last_reward := st.local_step
      episode_over := true
      reset_game := true }
  else st

/-- Embedding of the `if episode_over:` block that follows the guard in `_run`
(state effects only): clear the flag, reset the reward-step marker, and perform
a full environment reset (`s = self.emulator.get_initial_state()`) exactly when
`reset_game` is set or the game is in `ONE_LIFE_GAMES`; the returned boolean
records whether that reset was performed. -/
def episode_end (in_one_life_games : Bool) (st : RunState) : RunState × Bool :=
  if st.episode_over then
    let do_reset := st.reset_game || in_one_life_games
    ({ st with
        episode_over := false
        steps_at_last_reward := st.local_step
        reset_game := if do_reset then false else st.reset_game }, do_reset)
  else (st, false)

/-! ## sequence_decoder_actor_learner.py: `sample_action_sequence` -/

/-- The one-hot vector of width `num_actions + 1` selected by a single-trial
`np.random.multinomial(1, ...)` draw that chose category `c`. -/
def onehot (n : ℕ) (c : Fin (n + 1)) : Fin (n + 1) → ℕ :=
  fun j => if j = c then 1 else 0

/-- The GO token `np.hstack([np.zeros(num_actions), 1])`: only the extra
(stop) slot is set. -/
def go_token (n : ℕ) : Fin (n + 1) → ℕ := onehot n (Fin.last n)

/-- The initial `allowed_actions = np.hstack([np.ones(num_actions), 0])`:
every primitive-action slot is 1, the stop slot is 0. -/
def init_allowed (n : ℕ) : Fin (n + 1) → ℕ :=
  fun j => if j = Fin.last n then 0 else 1

/-- One iteration of the decoding loop of `sample_action_sequence`, as seen by
the network session: the `allowed_actions` vector fed to it and the token the
multinomial draw then selected. -/
structure DecodeStep (n : ℕ) where
  allowed : Fin (n + 1) → ℕ
  token : Fin (n + 1) → ℕ

/-- The `while True` decoding loop of `sample_action_sequence`.  `choose i` is
the category selected by the multinomial draw at iteration `i` (the network and
the random draw are out-of-scope collaborators, so the drawn category is an
oracle parameter).  Iteration `i` records the current `allowed_actions`
(as passed to the network), then sets `allowed_actions[-1] = 1`, appends the
sampled one-hot token, and returns if the token's stop slot is set or the
number of appended tokens reached `max_decoder_steps`.  The loop is driven by
fuel, which the wrapper below sets to `max_decoder_steps` (enough for every
terminating run of the source loop). -/
def sample_aux (n max_decoder_steps : ℕ) (choose : ℕ → Fin (n + 1)) :
    ℕ → ℕ → (Fin (n + 1) → ℕ) → List (DecodeStep n)
  | 0, _, _ => []
  | fuel + 1, i, allowed =>
    if onehot n (choose i) (Fin.last n) ≠ 0 ∨ i + 1 = max_decoder_steps then
      [⟨allowed, onehot n (choose i)⟩]
    else
      ⟨allowed, onehot n (choose i)⟩ ::
        sample_aux n max_decoder_steps choose fuel (i + 1)
          (fun j => if j = Fin.last n then 1 else allowed j)

/-- The full iteration trace of `sample_action_sequence`'s decoding loop. -/
def sample_trace (n m : ℕ) (choose : ℕ → Fin (n + 1)) : List (DecodeStep n) :=
  sample_aux n m choose m 0 (init_allowed n)

/-- The `actions` list returned by `sample_action_sequence` (the value estimate
it also returns plays no role in the claims about it). -/
def sample_action_sequence (n m : ℕ) (choose : ℕ → Fin (n + 1)) :
    List (Fin (n + 1) → ℕ) :=
  (sample_trace n m choose).map DecodeStep.token

/-! ## sequence_decoder_actor_learner.py: primitive execution in `_run` -/

/-- The `for a in action_sequence[:-1]:` loop body of `_run` (lines 125-131):
each executed action advances the emulator, whose reply at the `k`-th call of
this decision step is `outcomes k = (reward, episode_over)`; rewards are summed
into `acc_reward` and the loop breaks as soon as `episode_over` is reported.
Returns `(acc_reward, episode_over, number of primitive actions executed)`;
`k` counts the emulator calls made so far. -/
def exec_loop {τ : Type} (outcomes : ℕ → ℚ × Bool) :
    List τ → ℕ → ℚ → ℚ × Bool × ℕ
  | [], k, acc => (acc, false, k)
  | _ :: rest, k, acc =>
    if (outcomes k).2 then (acc + (outcomes k).1, true, k + 1)
    else exec_loop outcomes rest (k + 1) (acc + (outcomes k).1)

/-- One decision step's primitive execution: the loop above run over
`action_sequence[:-1]` with `acc_reward = 0.0`. -/
def decision_step {τ : Type} (outcomes : ℕ → ℚ × Bool) (seq : List τ) :
    ℚ × Bool × ℕ :=
  exec_loop outcomes seq.dropLast 0 0

/-! ## sequence_decoder_actor_learner.py: the return scan and batches in `_run` -/

/-- Embedding of lines 152-158 of `_run`: the bootstrap return is 0 when the
episode ended on the last collected step and otherwise the network's value
estimate `v_new` on the resulting state. -/
def bootstrap_R (episode_over : Bool) (v_new : ℚ) : ℚ :=
  if episode_over then 0 else v_new

/-- The four training batches appended to by the reverse scan of `_run`
(lines 161-168), in their append order. -/
structure BatchResult (σ τ : Type) where
  y : List ℚ
  adv : List ℚ
  s : List σ
  a : List (List τ)

/-- The body of `for i in reversed(xrange(len(states)))`: the input list holds
the per-step `(reward, value, state, action-sequence)` records in the order the
loop visits them (chronologically last first); each visit updates
`R = rewards[i] + gamma * R` and appends `R`, `R - values[i]`, `states[i]`,
`actions[i]` to the batches. -/
def scan_aux {σ τ : Type} (gamma : ℚ) :
    ℚ → List (ℚ × ℚ × σ × List τ) → BatchResult σ τ
  | _, [] => ⟨[], [], [], []⟩
  | R, (r, v, st, a) :: rest =>
    let R2 := r + gamma * R
    let b := scan_aux gamma R2 rest
    ⟨R2 :: b.y, (R2 - v) :: b.adv, st :: b.s, a :: b.a⟩

/-- The reverse scan of `_run` applied to the chronologically ordered per-step
records of one collected batch, starting from the bootstrap return `R0`. -/
def run_batch {σ τ : Type} (gamma R0 : ℚ) (rewards values : List ℚ)
    (states : List σ) (actions : List (List τ)) : BatchResult σ τ :=
  scan_aux gamma R0 (rewards.zip (values.zip (states.zip actions))).reverse

/-- Embedding of `seq_lengths = [len(seq) for seq in actions]` (line 174 of
`_run`) — computed from the chronological `actions` list. -/
def seq_lengths {τ : Type} (actions : List (List τ)) : List ℕ :=
  actions.map List.length

/-- Embedding of `padded_output_sequences` (lines 175-178 of `_run`): every
sequence of `a_batch` padded to `max_decoder_steps` entries with the all-zero
token. -/
def padded_output_sequences {τ : Type} (max_decoder_steps : ℕ) (zero : τ)
    (a_batch : List (List τ)) : List (List τ) :=
  a_batch.map (fun seq => seq ++ List.replicate (max_decoder_steps - seq.length) zero)

/-- Modelled from the spec: "Compute n-step discounted returns by a reverse
scan over the collected steps: `R ← reward[i] + gamma * R`" — the chronological
list of return targets, where entry `i` is `reward[i] + gamma *` (entry `i+1`,
or the bootstrap `R0` after the last step).  This definition follows the
spec's words; the theorems below compare the code's `y_batch` against it. -/
def spec_chron_returns (gamma R0 : ℚ) : List ℚ → List ℚ
  | [] => []
  | r :: rest =>
    let ys := spec_chron_returns gamma R0 rest
    (r + gamma * ys.headD R0) :: ys

/-! ## Theorems -/

/-- C9: `jenson_shannon_divergence(P, Q)` equals `jenson_shannon_divergence(Q, P)`
for all same-shape numeric arrays `P` and `Q` — symmetry of the Jensen-Shannon
divergence computed as `0.5*(KL(P,M) + KL(Q,M))` with `M = 0.5*(P+Q)`. -/
theorem jsd_symmetric (P Q : List ℝ) (h : P.length = Q.length) :
    jenson_shannon_divergence P Q = jenson_shannon_divergence Q P := by
  simp only [jenson_shannon_divergence]
  have hM : List.zipWith (fun p q => 0.5 * (p + q)) P Q
      = List.zipWith (fun p q => 0.5 * (p + q)) Q P :=
    List.zipWith_comm_of_comm _ (fun x y => by ring) P Q
  rw [hM, add_comm (kl_divergence Q _)]

/-- Witness for `jsd_symmetric` at concrete distributions. -/
theorem jsd_symmetric_witness :
    jenson_shannon_divergence [1, 0] [0, 1] = jenson_shannon_divergence [0, 1] [1, 0] :=
  jsd_symmetric [1, 0] [0, 1] rfl

theorem uniform_sample_mem (d u : ℝ) (hd : 0 ≤ d) (hu0 : 0 ≤ u) (hu1 : u ≤ 1) :
    -d ≤ uniform_sample d u ∧ uniform_sample d u ≤ d := by
  unfold uniform_sample
  constructor <;> nlinarith

theorem sqrt_half_double : 2 * Real.sqrt (1 / 2) = Real.sqrt 2 := by
  have hs : Real.sqrt 2 * Real.sqrt 2 = 2 := Real.mul_self_sqrt (by norm_num)
  have hne : Real.sqrt 2 ≠ 0 := by positivity
  have h12 : Real.sqrt (1 / 2 : ℝ) = (Real.sqrt 2)⁻¹ := by
    rw [show (1 / 2 : ℝ) = 2⁻¹ by norm_num, Real.sqrt_inv]
  rw [h12]
  field_simp

/-- C8: every weight element produced by the `conv2d`/`fc` weight initializers
lies in `[-d, d]` with `d = 2*sqrt(6/(fan_in+fan_out))` (conv:
`fan_in = channels*size^2`, `fan_out = filters*size^2`; fc: `fan_in = input_dim`,
`fan_out = output_dim`); in particular for `fan_in = fan_out = 6` the bound is
`sqrt 2` and every sampled element lies in `[-sqrt 2, sqrt 2]`. -/
theorem weight_init_bound (size channels filters input_dim output_dim : ℕ)
    (u : ℝ) (hu0 : 0 ≤ u) (hu1 : u ≤ 1) :
    (-(conv_weight_bound size channels filters)
        ≤ uniform_sample (conv_weight_bound size channels filters) u
      ∧ uniform_sample (conv_weight_bound size channels filters) u
        ≤ conv_weight_bound size channels filters) ∧
    (-(fc_weight_bound input_dim output_dim)
        ≤ uniform_sample (fc_weight_bound input_dim output_dim) u
      ∧ uniform_sample (fc_weight_bound input_dim output_dim) u
        ≤ fc_weight_bound input_dim output_dim) ∧
    fc_weight_bound 6 6 = Real.sqrt 2 ∧
    conv_weight_bound 1 6 6 = Real.sqrt 2 ∧
    -Real.sqrt 2 ≤ uniform_sample (fc_weight_bound 6 6) u ∧
    uniform_sample (fc_weight_bound 6 6) u ≤ Real.sqrt 2 := by
  have hconv : (0 : ℝ) ≤ conv_weight_bound size channels filters := by
    simp only [conv_weight_bound]
    positivity
  have hfc : ∀ a b : ℕ, (0 : ℝ) ≤ fc_weight_bound a b := by
    intro a b
    simp only [fc_weight_bound]
    positivity
  have hfc66 : fc_weight_bound 6 6 = Real.sqrt 2 := by
    simp only [fc_weight_bound]
    rw [show ((6 : ℕ) : ℝ) + ((6 : ℕ) : ℝ) = 12 by norm_num,
      show (6 : ℝ) / 12 = 1 / 2 by norm_num, sqrt_half_double]
  have hconv166 : conv_weight_bound 1 6 6 = Real.sqrt 2 := by
    simp only [conv_weight_bound]
    rw [show ((6 * (1 * 1) : ℕ) : ℝ) + ((6 * (1 * 1) : ℕ) : ℝ) = 12 by norm_num,
      show (6 : ℝ) / 12 = 1 / 2 by norm_num, sqrt_half_double]
  have h66 := uniform_sample_mem (fc_weight_bound 6 6) u (hfc 6 6) hu0 hu1
  exact ⟨uniform_sample_mem _ u hconv hu0 hu1,
    uniform_sample_mem _ u (hfc input_dim output_dim) hu0 hu1,
    hfc66, hconv166, hfc66 ▸ h66.1, hfc66 ▸ h66.2⟩

/-- Witness for `weight_init_bound` at quantile `u = 1/2`. -/
theorem weight_init_bound_witness :
    fc_weight_bound 6 6 = Real.sqrt 2 ∧
    -Real.sqrt 2 ≤ uniform_sample (fc_weight_bound 6 6) (1 / 2) ∧
    uniform_sample (fc_weight_bound 6 6) (1 / 2) ≤ Real.sqrt 2 := by
  have h := weight_init_bound 1 6 6 6 6 (1 / 2) (by norm_num) (by norm_num)
  exact ⟨h.2.2.1, h.2.2.2.2.1, h.2.2.2.2.2⟩

/-- C7: for the two designated 3-action games the wrapper's native action set
is exactly `[1, 2, 3]` regardless of the nominal action count and `get_actions`
reports 3 actions; for any other game the native action set is the full
discrete range `0..n-1` of the environment's reported action count. -/
theorem atari_three_action_restriction (game : String) (n m : ℕ) :
    (game ∈ threeActionGames →
      gym_actions game n = [1, 2, 3] ∧
      get_actions game (ActionSpace.discrete m) = Except.ok 3) ∧
    (game ∉ threeActionGames →
      gym_actions game n = List.range n ∧
      (gym_actions game n).length = n ∧
      get_actions game (ActionSpace.discrete m) = Except.ok m) := by
  constructor
  · intro hg
    simp [gym_actions, get_actions, hg]
  · intro hg
    simp [gym_actions, get_actions, hg]

/-- Witness for `atari_three_action_restriction` on `Pong-v0` (restricted) and
`Frostbite-v0` (unrestricted). -/
theorem atari_three_action_restriction_witness :
    gym_actions "Pong-v0" 6 = [1, 2, 3] ∧
    get_actions "Pong-v0" (ActionSpace.discrete 6) = Except.ok 3 ∧
    gym_actions "Frostbite-v0" 18 = List.range 18 ∧
    get_actions "Frostbite-v0" (ActionSpace.discrete 18) = Except.ok 18 := by
  have h1 := (atari_three_action_restriction "Pong-v0" 6 6).1 (by decide)
  have h2 := (atari_three_action_restriction "Frostbite-v0" 18 18).2 (by decide)
  exact ⟨h1.1, h1.2, h2.1, h2.2.2⟩

/-- C5: whenever more than 5000 local steps have elapsed since the last
non-zero reward, or the emulator reports zero lives and the game is not in the
one-life exemption set, the guard in `_run` sets `episode_over` and
`reset_game`, and the episode-over block that follows performs the full
environment reset; the worker never continues the episode past this guard. -/
theorem stuck_guard_forces_termination (lives : ℕ) (one_life : Bool)
    (st : RunState)
    (hcond : 5000 < st.local_step - st.steps_at_last_reward
      ∨ (lives = 0 ∧ one_life = false)) :
    (stuck_guard lives one_life st).episode_over = true ∧
    (stuck_guard lives one_life st).reset_game = true ∧
    (episode_end one_life (stuck_guard lives one_life st)).2 = true := by
  unfold stuck_guard episode_end
  rw [if_pos hcond]
  simp

/-- Witness for `stuck_guard_forces_termination`: a worker at local step 6000
with its last non-zero reward at step 0. -/
theorem stuck_guard_forces_termination_witness :
    (stuck_guard 3 true ⟨6000, 0, false, false⟩).episode_over = true ∧
    (stuck_guard 3 true ⟨6000, 0, false, false⟩).reset_game = true ∧
    (episode_end true (stuck_guard 3 true ⟨6000, 0, false, false⟩)).2 = true :=
  stuck_guard_forces_termination 3 true ⟨6000, 0, false, false⟩ (Or.inl (by decide))

theorem env_trace_invariant {α : Type} (x0 : α) (f : ℕ → α) (k : ℕ) :
    ((env_trace 4 x0 f k).1).length = 4 ∧
    (env_trace 4 x0 f k).2 = ((env_trace 4 x0 f k).1).drop 1 := by
  induction k with
  | zero => exact ⟨rfl, rfl⟩
  | succ k ih =>
    obtain ⟨hlen, hbuf⟩ := ih
    have hblen : ((env_trace 4 x0 f k).2).length = 3 := by
      rw [hbuf, List.length_drop, hlen]
    have htake : ((env_trace 4 x0 f k).2).take 3 = (env_trace 4 x0 f k).2 := by
      conv_lhs => rw [← hblen]
      exact List.take_length _
    have hstate : (env_trace 4 x0 f (k + 1)).1
        = (env_trace 4 x0 f k).2 ++ [f (k + 1)] := by
      show (env_next 4 (env_trace 4 x0 f k).2 (f (k + 1))).1 = _
      unfold env_next get_state
      rw [show (4 : ℕ) - 1 = 3 from rfl, htake]
    constructor
    · rw [hstate, List.length_append, hblen]
      rfl
    · show (env_next 4 (env_trace 4 x0 f k).2 (f (k + 1))).2 = _
      unfold env_next deque_push
      rw [hstate]
      simp only [List.length_append, hblen]
      norm_num

/-- C6: in non-RGB mode with history length 4, `get_initial_state` returns a
state whose last axis has its 4 slices all equal to the first preprocessed
frame, and every subsequent `next()` returns a state whose last slice is the
newly preprocessed frame and whose second-to-last slice is what was the last
slice before the call. -/
theorem frame_history_sliding (α : Type) (x0 : α) (f : ℕ → α) (k : ℕ) :
    (env_trace 4 x0 f 0).1 = [x0, x0, x0, x0] ∧
    ((env_trace 4 x0 f (k + 1)).1)[3]? = some (f (k + 1)) ∧
    ((env_trace 4 x0 f (k + 1)).1)[2]? = ((env_trace 4 x0 f k).1)[3]? := by
  obtain ⟨hlen, hbuf⟩ := env_trace_invariant x0 f k
  have hblen : ((env_trace 4 x0 f k).2).length = 3 := by
    rw [hbuf, List.length_drop, hlen]
  have htake : ((env_trace 4 x0 f k).2).take 3 = (env_trace 4 x0 f k).2 := by
    conv_lhs => rw [← hblen]
    exact List.take_length _
  have hstate : (env_trace 4 x0 f (k + 1)).1
      = (env_trace 4 x0 f k).2 ++ [f (k + 1)] := by
    show (env_next 4 (env_trace 4 x0 f k).2 (f (k + 1))).1 = _
    unfold env_next get_state
    rw [show (4 : ℕ) - 1 = 3 from rfl, htake]
  refine ⟨rfl, ?_, ?_⟩
  · rw [hstate, List.getElem?_append_right (by rw [hblen])]
    rw [hblen]
    rfl
  · rw [hstate, List.getElem?_append_left (by rw [hblen]; norm_num), hbuf,
      List.getElem?_drop]

theorem spec_chron_returns_append (gamma R0 r : ℚ) (xs : List ℚ) :
    spec_chron_returns gamma R0 (xs ++ [r])
      = spec_chron_returns gamma (r + gamma * R0) xs ++ [r + gamma * R0] := by
  induction xs with
  | nil => rfl
  | cons x xs ih =>
    have hh : (spec_chron_returns gamma (r + gamma * R0) xs
          ++ [r + gamma * R0]).headD R0
        = (spec_chron_returns gamma (r + gamma * R0) xs).headD (r + gamma * R0) := by
      cases spec_chron_returns gamma (r + gamma * R0) xs <;> rfl
    simp only [List.cons_append, spec_chron_returns, List.append_eq]
    rw [ih, hh]

theorem scan_aux_y_spec {σ τ : Type} (gamma : ℚ) (l : List (ℚ × ℚ × σ × List τ))
    (R : ℚ) :
    (scan_aux gamma R l).y
      = (spec_chron_returns gamma R ((l.map (fun x => x.1)).reverse)).reverse := by
  induction l generalizing R with
  | nil => rfl
  | cons hd tl ih =>
    obtain ⟨r, v, st, a⟩ := hd
    simp only [scan_aux, List.map_cons, List.reverse_cons]
    rw [spec_chron_returns_append, List.reverse_append, ih]
    rfl

theorem scan_aux_adv_spec {σ τ : Type} (gamma : ℚ) (l : List (ℚ × ℚ × σ × List τ))
    (R : ℚ) :
    (scan_aux gamma R l).adv
      = List.zipWith (fun y v => y - v) (scan_aux gamma R l).y
          (l.map (fun x => x.2.1)) := by
  induction l generalizing R with
  | nil => rfl
  | cons hd tl ih =>
    obtain ⟨r, v, st, a⟩ := hd
    simp only [scan_aux, List.map_cons, List.zipWith_cons_cons]
    rw [ih]

theorem scan_aux_s_spec {σ τ : Type} (gamma : ℚ) (l : List (ℚ × ℚ × σ × List τ))
    (R : ℚ) :
    (scan_aux gamma R l).s = l.map (fun x => x.2.2.1) := by
  induction l generalizing R with
  | nil => rfl
  | cons hd tl ih =>
    obtain ⟨r, v, st, a⟩ := hd
    simp only [scan_aux, List.map_cons]
    rw [ih]

theorem scan_aux_a_spec {σ τ : Type} (gamma : ℚ) (l : List (ℚ × ℚ × σ × List τ))
    (R : ℚ) :
    (scan_aux gamma R l).a = l.map (fun x => x.2.2.2) := by
  induction l generalizing R with
  | nil => rfl
  | cons hd tl ih =>
    obtain ⟨r, v, st, a⟩ := hd
    simp only [scan_aux, List.map_cons]
    rw [ih]

theorem run_batch_zip_proj {σ τ : Type} (rewards values : List ℚ)
    (states : List σ) (actions : List (List τ))
    (h1 : values.length = rewards.length) (h2 : states.length = rewards.length)
    (h3 : actions.length = rewards.length) :
    ((rewards.zip (values.zip (states.zip actions))).reverse.map
        (fun x => x.1) = rewards.reverse) ∧
    ((rewards.zip (values.zip (states.zip actions))).reverse.map
        (fun x => x.2.1) = values.reverse) ∧
    ((rewards.zip (values.zip (states.zip actions))).reverse.map
        (fun x => x.2.2.1) = states.reverse) ∧
    ((rewards.zip (values.zip (states.zip actions))).reverse.map
        (fun x => x.2.2.2) = actions.reverse) := by
  have hsa : (states.zip actions).length = rewards.length := by
    rw [List.length_zip, h2, h3, min_self]
  have hX : (values.zip (states.zip actions)).length = rewards.length := by
    rw [List.length_zip, h1, hsa, min_self]
  have hfst : (rewards.zip (values.zip (states.zip actions))).map Prod.fst
      = rewards := List.map_fst_zip _ _ (by rw [hX])
  have hsnd : (rewards.zip (values.zip (states.zip actions))).map Prod.snd
      = values.zip (states.zip actions) := List.map_snd_zip _ _ (by rw [hX])
  have hvfst : (values.zip (states.zip actions)).map Prod.fst = values :=
    List.map_fst_zip _ _ (by rw [hsa, h1])
  have hvsnd : (values.zip (states.zip actions)).map Prod.snd
      = states.zip actions := List.map_snd_zip _ _ (by rw [hsa, h1])
  have hsfst : (states.zip actions).map Prod.fst = states :=
    List.map_fst_zip _ _ (by rw [h2, h3])
  have hssnd : (states.zip actions).map Prod.snd = actions :=
    List.map_snd_zip _ _ (by rw [h2, h3])
  refine ⟨?_, ?_, ?_, ?_⟩
  · rw [List.map_reverse, hfst]
  · rw [List.map_reverse]
    rw [show (fun x : ℚ × ℚ × σ × List τ => x.2.1)
        = Prod.fst ∘ Prod.snd from rfl, ← List.map_map, hsnd, hvfst]
  · rw [List.map_reverse]
    rw [show (fun x : ℚ × ℚ × σ × List τ => x.2.2.1)
        = (Prod.fst ∘ Prod.snd) ∘ Prod.snd from rfl, ← List.map_map, hsnd,
      ← List.map_map, hvsnd, hsfst]
  · rw [List.map_reverse]
    rw [show (fun x : ℚ × ℚ × σ × List τ => x.2.2.2)
        = (Prod.snd ∘ Prod.snd) ∘ Prod.snd from rfl, ← List.map_map, hsnd,
      ← List.map_map, hvsnd, hssnd]

/-- C1: the return targets of `_run` are produced by the reverse scan
`R ← reward[i] + gamma*R` from the bootstrap `R` (0 when the episode ended,
otherwise the value estimate on the resulting state): `y_batch` equals the
chronological discounted-return list reversed, `adv_batch` is `R - value[i]`
entrywise, and for three steps of reward 1 ending terminal with `gamma = 0.9`
the chronological `y_batch` is `[2.71, 1.9, 1]`. -/
theorem return_scan_correct {σ τ : Type} (gamma R0 v : ℚ)
    (rewards values : List ℚ) (states : List σ) (actions : List (List τ))
    (h1 : values.length = rewards.length) (h2 : states.length = rewards.length)
    (h3 : actions.length = rewards.length) :
    (run_batch gamma R0 rewards values states actions).y
        = (spec_chron_returns gamma R0 rewards).reverse ∧
    (run_batch gamma R0 rewards values states actions).adv
        = List.zipWith (fun y w => y - w)
            (run_batch gamma R0 rewards values states actions).y
            values.reverse ∧
    bootstrap_R true v = 0 ∧
    bootstrap_R false v = v ∧
    (run_batch (9/10) (bootstrap_R true v) [1, 1, 1] [0, 0, 0]
        ([0, 0, 0] : List ℚ) ([[0], [0], [0]] : List (List ℚ))).y.reverse
      = [271/100, 19/10, 1] := by
  obtain ⟨hp1, hp2, _, _⟩ := run_batch_zip_proj rewards values states actions h1 h2 h3
  refine ⟨?_, ?_, rfl, rfl, ?_⟩
  · unfold run_batch
    rw [scan_aux_y_spec, hp1, List.reverse_reverse]
  · unfold run_batch
    rw [scan_aux_adv_spec, hp2]
  · have hb : bootstrap_R true v = 0 := rfl
    rw [hb]
    norm_num [run_batch, scan_aux]

/-- Witness for `return_scan_correct` at the three-step reward-1 batch. -/
theorem return_scan_correct_witness :
    (run_batch (9/10) 0 [1, 1, 1] [0, 0, 0] ([0, 0, 0] : List ℚ)
        ([[0], [0], [0]] : List (List ℚ))).y
      = (spec_chron_returns (9/10) 0 [1, 1, 1]).reverse :=
  (return_scan_correct (9/10) 0 5 [1, 1, 1] [0, 0, 0] [0, 0, 0]
    [[0], [0], [0]] rfl rfl rfl).1

/-- C4 counterexample: with collected sequences of lengths `[1, 2, 1]`, every
entry of `decoder_seq_lengths` equals the true (pre-padding) length of the
corresponding entry of the reverse-chronological padded batch (the length list
is a palindrome), yet the sequences do not all have the same length — so the
pointwise match does NOT hold only when all lengths are equal. -/
theorem batch_order_counterexample :
    seq_lengths ([[true], [true, true], [true]] : List (List Bool))
        = ((run_batch 1 0 [0, 0, 0] [0, 0, 0] ([0, 0, 0] : List ℚ)
            ([[true], [true, true], [true]])).a.map List.length) ∧
    ¬ (seq_lengths ([[true], [true, true], [true]] : List (List Bool))).Pairwise
        (fun a b => a = b) := by
  constructor
  · norm_num [seq_lengths, run_batch, scan_aux]
  · decide

/-- C4 (amended): in every gradient update prepared by `_run`, `a_batch` and
`s_batch` (and with them `y_batch` and `adv_batch`, appended by the same loop)
are the chronological lists reversed, while `decoder_seq_lengths` is the
chronological length list; the i-th entry of `decoder_seq_lengths` equals the
true (pre-padding) length of the i-th padded sequence for every i exactly when
the list of sequence lengths equals its own reverse (a palindrome) — equal
lengths everywhere are sufficient but not necessary. -/
theorem batch_order_vs_seq_lengths {σ τ : Type} (gamma R0 : ℚ)
    (rewards values : List ℚ) (states : List σ) (actions : List (List τ))
    (h1 : values.length = rewards.length) (h2 : states.length = rewards.length)
    (h3 : actions.length = rewards.length) :
    (run_batch gamma R0 rewards values states actions).a = actions.reverse ∧
    (run_batch gamma R0 rewards values states actions).s = states.reverse ∧
    (seq_lengths actions
        = ((run_batch gamma R0 rewards values states actions).a.map List.length)
      ↔ actions.map List.length = (actions.map List.length).reverse) := by
  obtain ⟨_, _, hp3, hp4⟩ := run_batch_zip_proj rewards values states actions h1 h2 h3
  have ha : (run_batch gamma R0 rewards values states actions).a
      = actions.reverse := by
    unfold run_batch
    rw [scan_aux_a_spec, hp4]
  have hs : (run_batch gamma R0 rewards values states actions).s
      = states.reverse := by
    unfold run_batch
    rw [scan_aux_s_spec, hp3]
  refine ⟨ha, hs, ?_⟩
  rw [ha, List.map_reverse]
  exact Iff.rfl

/-- Witness for `batch_order_vs_seq_lengths` at a concrete two-step batch. -/
theorem batch_order_vs_seq_lengths_witness :
    (run_batch 1 0 [0, 0] [0, 0] ([0, 0] : List ℚ)
        ([[true], [false]] : List (List Bool))).a = [[false], [true]] :=
  ((batch_order_vs_seq_lengths 1 0 [0, 0] [0, 0] ([0, 0] : List ℚ)
    [[true], [false]] rfl rfl rfl).1).trans (by decide)

theorem sample_aux_length_le (n m : ℕ) (choose : ℕ → Fin (n + 1)) :
    ∀ (fuel i : ℕ) (allowed : Fin (n + 1) → ℕ),
      (sample_aux n m choose fuel i allowed).length ≤ fuel := by
  intro fuel
  induction fuel with
  | zero =>
    intro i a
    simp [sample_aux]
  | succ fuel ih =>
    intro i a
    unfold sample_aux
    split
    · simp
    · simpa using ih (i + 1) _

theorem sample_aux_head (n m : ℕ) (choose : ℕ → Fin (n + 1)) (fuel i : ℕ)
    (allowed : Fin (n + 1) → ℕ) (h : 0 < fuel) :
    ∃ rest, sample_aux n m choose fuel i allowed
      = ⟨allowed, onehot n (choose i)⟩ :: rest := by
  cases fuel with
  | zero => omega
  | succ fuel =>
    unfold sample_aux
    split
    · exact ⟨[], rfl⟩
    · exact ⟨_, rfl⟩

theorem sample_aux_allowed_one (n m : ℕ) (choose : ℕ → Fin (n + 1)) :
    ∀ (fuel i : ℕ) (allowed : Fin (n + 1) → ℕ),
      allowed (Fin.last n) = 1 →
      ∀ s ∈ sample_aux n m choose fuel i allowed,
        s.allowed (Fin.last n) = 1 := by
  intro fuel
  induction fuel with
  | zero =>
    intro i a ha s hs
    simp [sample_aux] at hs
  | succ fuel ih =>
    intro i a ha s hs
    unfold sample_aux at hs
    split at hs
    · simp at hs
      rw [hs]
      exact ha
    · simp only [List.mem_cons] at hs
      rcases hs with hs | hs
      · rw [hs]
        exact ha
      · exact ih (i + 1) _ (by simp) s hs

theorem sample_aux_tail_allowed (n m : ℕ) (choose : ℕ → Fin (n + 1))
    (fuel i : ℕ) (allowed : Fin (n + 1) → ℕ) :
    ∀ s ∈ (sample_aux n m choose fuel i allowed).tail,
      s.allowed (Fin.last n) = 1 := by
  cases fuel with
  | zero =>
    intro s hs
    simp [sample_aux] at hs
  | succ fuel =>
    intro s hs
    unfold sample_aux at hs
    split at hs
    · simp at hs
    · simp only [List.tail_cons] at hs
      exact sample_aux_allowed_one n m choose fuel (i + 1) _ (by simp) s hs

theorem sample_aux_token_onehot (n m : ℕ) (choose : ℕ → Fin (n + 1)) :
    ∀ (fuel i : ℕ) (allowed : Fin (n + 1) → ℕ),
      ∀ s ∈ sample_aux n m choose fuel i allowed,
        ∃ c, s.token = onehot n c := by
  intro fuel
  induction fuel with
  | zero =>
    intro i a s hs
    simp [sample_aux] at hs
  | succ fuel ih =>
    intro i a s hs
    unfold sample_aux at hs
    split at hs
    · simp at hs
      exact ⟨choose i, by rw [hs]⟩
    · simp only [List.mem_cons] at hs
      rcases hs with hs | hs
      · exact ⟨choose i, by rw [hs]⟩
      · exact ih (i + 1) _ s hs

theorem sample_aux_dropLast_token (n m : ℕ) (choose : ℕ → Fin (n + 1)) :
    ∀ (fuel i : ℕ) (allowed : Fin (n + 1) → ℕ),
      ∀ s ∈ (sample_aux n m choose fuel i allowed).dropLast,
        s.token (Fin.last n) = 0 := by
  intro fuel
  induction fuel with
  | zero =>
    intro i a s hs
    simp [sample_aux] at hs
  | succ fuel ih =>
    intro i a s hs
    unfold sample_aux at hs
    split at hs
    · simp at hs
    · rename_i hcond
      push_neg at hcond
      cases hrec : sample_aux n m choose fuel (i + 1)
          (fun j => if j = Fin.last n then 1 else a j) with
      | nil =>
        rw [hrec] at hs
        simp at hs
      | cons b t =>
        rw [hrec, List.dropLast_cons₂] at hs
        simp only [List.mem_cons] at hs
        rcases hs with hs | hs
        · rw [hs]
          exact hcond.1
        · exact ih (i + 1) _ s (by rw [hrec]; exact hs)

theorem sample_aux_ne_nil (n m : ℕ) (choose : ℕ → Fin (n + 1)) (fuel i : ℕ)
    (allowed : Fin (n + 1) → ℕ) (h : 0 < fuel) :
    sample_aux n m choose fuel i allowed ≠ [] := by
  obtain ⟨rest, hrest⟩ := sample_aux_head n m choose fuel i allowed h
  rw [hrest]
  simp

theorem sample_aux_getLast_stop (n m : ℕ) (choose : ℕ → Fin (n + 1)) :
    ∀ (fuel i : ℕ) (allowed : Fin (n + 1) → ℕ), i + fuel = m →
      ∀ s, (sample_aux n m choose fuel i allowed).getLast? = some s →
        s.token (Fin.last n) ≠ 0
          ∨ i + (sample_aux n m choose fuel i allowed).length = m := by
  intro fuel
  induction fuel with
  | zero =>
    intro i a _ s hs
    simp [sample_aux] at hs
  | succ fuel ih =>
    intro i a hm s hs
    unfold sample_aux at hs ⊢
    split at hs
    · rename_i hcond
      simp only [List.getLast?_singleton, Option.some.injEq] at hs
      rcases hcond with hc | hc
      · left
        rw [← hs]
        exact hc
      · right
        rw [if_pos (Or.inr hc)]
        simpa using hc
    · rename_i hcond
      push_neg at hcond
      have hfuel : 0 < fuel := by omega
      have hne := sample_aux_ne_nil n m choose fuel (i + 1)
        (fun j => if j = Fin.last n then 1 else a j) hfuel
      obtain ⟨b, t, hbt⟩ := List.exists_cons_of_ne_nil hne
      rw [hbt, List.getLast?_cons_cons] at hs
      have := ih (i + 1) (fun j => if j = Fin.last n then 1 else a j)
        (by omega) s (by rw [hbt]; exact hs)
      rcases this with hstop | hlen
      · left
        exact hstop
      · right
        rw [if_neg (by push_neg; exact hcond)]
        simp only [List.length_cons]
        omega

/-- C3: in `sample_action_sequence` the allowed-actions mask fed to the network
has the stop slot 0 on the very first decoding iteration and 1 on every later
iteration (with every non-stop slot 1 initially), so — given that the sampled
category must carry non-zero allowed mass — the stop token is never selected
first; and the returned sequence never exceeds `max_decoder_steps` tokens. -/
theorem first_mask_forbids_stop (n m : ℕ) (choose : ℕ → Fin (n + 1))
    (h : 1 ≤ m) :
    (∃ rest, sample_trace n m choose
        = ⟨init_allowed n, onehot n (choose 0)⟩ :: rest ∧
        ∀ s ∈ rest, s.allowed (Fin.last n) = 1) ∧
    init_allowed n (Fin.last n) = 0 ∧
    (∀ j, j ≠ Fin.last n → init_allowed n j = 1) ∧
    (sample_action_sequence n m choose).length ≤ m ∧
    (init_allowed n (choose 0) ≠ 0 →
      (sample_action_sequence n m choose).headD (go_token n)
        ≠ onehot n (Fin.last n)) := by
  obtain ⟨rest, hrest⟩ := sample_aux_head n m choose m 0 (init_allowed n) h
  refine ⟨⟨rest, hrest, ?_⟩, by simp [init_allowed], ?_, ?_, ?_⟩
  · intro s hs
    have := sample_aux_tail_allowed n m choose m 0 (init_allowed n)
    rw [hrest] at this
    exact this s hs
  · intro j hj
    simp [init_allowed, hj]
  · unfold sample_action_sequence
    rw [List.length_map]
    exact sample_aux_length_le n m choose m 0 (init_allowed n)
  · intro hch
    have hne : choose 0 ≠ Fin.last n := by
      intro hc
      rw [hc] at hch
      simp [init_allowed] at hch
    unfold sample_action_sequence sample_trace
    rw [hrest]
    simp only [List.map_cons, List.headD_cons]
    intro heq
    have h1 : onehot n (choose 0) (Fin.last n) = 0 := by
      unfold onehot
      rw [if_neg]
      intro hq
      exact hne hq.symm
    have h2 : onehot n (Fin.last n) (Fin.last n) = 1 := by
      simp [onehot]
    rw [heq, h2] at h1
    exact one_ne_zero h1

/-- Witness for `first_mask_forbids_stop` at `n = 1`, `m = 2`, the sampler
always choosing category 0. -/
theorem first_mask_forbids_stop_witness :
    (sample_action_sequence 1 2 (fun _ => (0 : Fin 2))).length ≤ 2 ∧
    (sample_action_sequence 1 2 (fun _ => (0 : Fin 2))).headD (go_token 1)
      ≠ onehot 1 (Fin.last 1) := by
  have h := first_mask_forbids_stop 1 2 (fun _ => (0 : Fin 2)) (by norm_num)
  exact ⟨h.2.2.2.1, h.2.2.2.2 (by decide)⟩

/-- C10: every sequence returned by `sample_action_sequence` is non-empty,
every token in it is a one-hot vector of width `num_actions + 1`, and the stop
token occurs at most once — only possibly as the final token (every non-final
token has its stop slot unset and differs from the stop one-hot). -/
theorem sampled_sequence_invariants (n m : ℕ) (choose : ℕ → Fin (n + 1))
    (h : 1 ≤ m) :
    1 ≤ (sample_action_sequence n m choose).length ∧
    (∀ t ∈ sample_action_sequence n m choose, ∃ c, t = onehot n c) ∧
    (∀ t ∈ (sample_action_sequence n m choose).dropLast,
      t (Fin.last n) = 0 ∧ t ≠ onehot n (Fin.last n)) := by
  obtain ⟨rest, hrest⟩ := sample_aux_head n m choose m 0 (init_allowed n) h
  refine ⟨?_, ?_, ?_⟩
  · unfold sample_action_sequence sample_trace
    rw [hrest]
    simp
  · intro t ht
    unfold sample_action_sequence at ht
    rw [List.mem_map] at ht
    obtain ⟨s, hs, hst⟩ := ht
    obtain ⟨c, hc⟩ := sample_aux_token_onehot n m choose m 0 (init_allowed n) s hs
    exact ⟨c, by rw [← hst, hc]⟩
  · intro t ht
    unfold sample_action_sequence at ht
    rw [← List.map_dropLast, List.mem_map] at ht
    obtain ⟨s, hs, hst⟩ := ht
    have h0 := sample_aux_dropLast_token n m choose m 0 (init_allowed n) s hs
    refine ⟨by rw [← hst]; exact h0, ?_⟩
    intro heq
    have h2 : onehot n (Fin.last n) (Fin.last n) = 1 := by
      simp [onehot]
    rw [← hst] at heq
    rw [heq, h2] at h0
    exact one_ne_zero h0

/-- Witness for `sampled_sequence_invariants` at `n = 1`, `m = 3`, the sampler
always choosing category 0. -/
theorem sampled_sequence_invariants_witness :
    1 ≤ (sample_action_sequence 1 3 (fun _ => (0 : Fin 2))).length ∧
    ∀ t ∈ (sample_action_sequence 1 3 (fun _ => (0 : Fin 2))).dropLast,
      t (Fin.last 1) = 0 := by
  have h := sampled_sequence_invariants 1 3 (fun _ => (0 : Fin 2)) (by norm_num)
  exact ⟨h.1, fun t ht => (h.2.2 t ht).1⟩

theorem exec_loop_count_le {τ : Type} (outcomes : ℕ → ℚ × Bool) :
    ∀ (l : List τ) (k : ℕ) (acc : ℚ),
      (exec_loop outcomes l k acc).2.2 ≤ k + l.length := by
  intro l
  induction l with
  | nil =>
    intro k acc
    simp [exec_loop]
  | cons hd tl ih =>
    intro k acc
    unfold exec_loop
    split
    · simp only [List.length_cons]
      omega
    · have := ih (k + 1) (acc + (outcomes k).1)
      simp only [List.length_cons]
      omega

theorem range_succ_sum_shift (g : ℕ → ℚ) (len : ℕ) :
    ((List.range (len + 1)).map g).sum
      = g 0 + ((List.range len).map (fun t => g (t + 1))).sum := by
  rw [List.range_succ_eq_map, List.map_cons, List.sum_cons, List.map_map]
  rfl

theorem exec_loop_no_over {τ : Type} (outcomes : ℕ → ℚ × Bool) :
    ∀ (l : List τ) (k : ℕ) (acc : ℚ),
      (∀ j, j < l.length → (outcomes (k + j)).2 = false) →
      exec_loop outcomes l k acc
        = (acc + ((List.range l.length).map (fun t => (outcomes (k + t)).1)).sum,
            false, k + l.length) := by
  intro l
  induction l with
  | nil =>
    intro k acc _
    simp [exec_loop]
  | cons hd tl ih =>
    intro k acc hfalse
    have h0 : (outcomes k).2 = false := by
      have := hfalse 0 (by simp)
      simpa using this
    unfold exec_loop
    rw [if_neg (by rw [h0]; exact Bool.false_ne_true)]
    rw [ih (k + 1) (acc + (outcomes k).1)
      (fun j hj => by
        have := hfalse (j + 1) (by simpa using Nat.succ_lt_succ hj)
        rw [show k + 1 + j = k + (j + 1) by omega]
        exact this)]
    have hsum : ((List.range (tl.length + 1)).map
          (fun t => (outcomes (k + t)).1)).sum
        = (outcomes k).1
          + ((List.range tl.length).map (fun t => (outcomes (k + 1 + t)).1)).sum := by
      rw [range_succ_sum_shift (fun t => (outcomes (k + t)).1) tl.length]
      have hf : (fun t => (outcomes (k + (t + 1))).1)
          = (fun t => (outcomes (k + 1 + t)).1) := by
        funext t
        rw [show k + (t + 1) = k + 1 + t by omega]
      rw [hf]
      norm_num
    simp only [List.length_cons]
    rw [hsum, show k + 1 + tl.length = k + (tl.length + 1) by omega, add_assoc]

theorem exec_loop_first_over {τ : Type} (outcomes : ℕ → ℚ × Bool) :
    ∀ (l : List τ) (j k : ℕ) (acc : ℚ),
      j < l.length → (outcomes (k + j)).2 = true →
      (∀ i, i < j → (outcomes (k + i)).2 = false) →
      exec_loop outcomes l k acc
        = (acc + ((List.range (j + 1)).map (fun t => (outcomes (k + t)).1)).sum,
            true, k + j + 1) := by
  intro l
  induction l with
  | nil =>
    intro j k acc hj _ _
    simp at hj
  | cons hd tl ih =>
    intro j k acc hj hover hprev
    cases j with
    | zero =>
      have h0 : (outcomes k).2 = true := hover
      unfold exec_loop
      rw [if_pos h0]
      have hsum : ((List.range 1).map (fun t => (outcomes (k + t)).1)).sum
          = (outcomes k).1 := by
        rw [show List.range 1 = [0] from rfl, List.map_cons, List.map_nil,
          List.sum_cons, List.sum_nil, add_zero]
        rfl
      rw [hsum]
    | succ j =>
      have h0 : (outcomes k).2 = false := by
        have := hprev 0 (Nat.succ_pos j)
        simpa using this
      unfold exec_loop
      rw [if_neg (by rw [h0]; exact Bool.false_ne_true)]
      rw [ih j (k + 1) (acc + (outcomes k).1)
        (by simpa using Nat.lt_of_succ_lt_succ hj)
        (by rw [show k + 1 + j = k + (j + 1) by omega]; exact hover)
        (fun i hi => by
          rw [show k + 1 + i = k + (i + 1) by omega]
          exact hprev (i + 1) (Nat.succ_lt_succ hi))]
      have hsum : ((List.range (j + 1 + 1)).map
            (fun t => (outcomes (k + t)).1)).sum
          = (outcomes k).1
            + ((List.range (j + 1)).map (fun t => (outcomes (k + 1 + t)).1)).sum := by
        rw [range_succ_sum_shift (fun t => (outcomes (k + t)).1) (j + 1)]
        have hf : (fun t => (outcomes (k + (t + 1))).1)
            = (fun t => (outcomes (k + 1 + t)).1) := by
          funext t
          rw [show k + (t + 1) = k + 1 + t by omega]
        rw [hf]
        norm_num
      rw [hsum, show k + 1 + j + 1 = k + (j + 1) + 1 by omega, add_assoc]

/-- C2 counterexample: with the sampler always choosing a non-stop action and
`max_decoder_steps = 3`, the sampled sequence has 3 tokens (so
`len(sequence) - 1 = 2`), yet when the very first primitive execution reports
the episode over, only 1 primitive action is executed — and the excluded final
member is not flagged as the stop marker (its stop slot is 0). -/
theorem primitive_execution_counterexample :
    (decision_step (fun _ => ((1 : ℚ), true))
        (sample_action_sequence 1 3 (fun _ => (0 : Fin 2)))).2.2 = 1 ∧
    (sample_action_sequence 1 3 (fun _ => (0 : Fin 2))).length - 1 = 2 ∧
    ((sample_action_sequence 1 3 (fun _ => (0 : Fin 2))).getLast?.map
        (fun t => t (Fin.last 1))) = some 0 ∧
    (1 : ℕ) ≠ 2 := by
  refine ⟨?_, by decide, by decide, by decide⟩
  norm_num [decision_step, exec_loop, sample_action_sequence, sample_trace,
    sample_aux, onehot, init_allowed]

/-- C2 (amended): at every decision step of `_run`, the primitive actions
executed are an initial segment of the first `len(sequence) - 1` members of the
sampled sequence: all of them when no execution reports the episode over
(exactly `len(sequence) - 1` executed), and exactly `j + 1` when the `j`-th
primitive execution is the first to report the episode over (execution stops
immediately); their rewards are accumulated into one scalar.  The final member
is always the one excluded; it is the stop marker whenever the sequence ended
by sampling the stop token (in particular whenever its length is below
`max_decoder_steps`), but it need not be when the sequence was cut off at
`max_decoder_steps`. -/
theorem primitive_execution_characterization {τ : Type}
    (outcomes : ℕ → ℚ × Bool) (seq : List τ) :
    (decision_step outcomes seq).2.2 ≤ seq.length - 1 ∧
    ((∀ j, j < seq.length - 1 → (outcomes j).2 = false) →
      decision_step outcomes seq
        = (((List.range (seq.length - 1)).map (fun t => (outcomes t).1)).sum,
            false, seq.length - 1)) ∧
    (∀ j, j < seq.length - 1 → (outcomes j).2 = true →
      (∀ i, i < j → (outcomes i).2 = false) →
      decision_step outcomes seq
        = (((List.range (j + 1)).map (fun t => (outcomes t).1)).sum,
            true, j + 1)) ∧
    (∀ (n m : ℕ) (choose : ℕ → Fin (n + 1)),
      (sample_action_sequence n m choose).length < m →
      ∀ t, (sample_action_sequence n m choose).getLast? = some t →
        t = onehot n (Fin.last n)) := by
  have hdl : seq.dropLast.length = seq.length - 1 := List.length_dropLast seq
  refine ⟨?_, ?_, ?_, ?_⟩
  · have := exec_loop_count_le outcomes seq.dropLast 0 0
    unfold decision_step
    omega
  · intro hfalse
    unfold decision_step
    rw [exec_loop_no_over outcomes seq.dropLast 0 0
      (fun j hj => by
        rw [zero_add]
        exact hfalse j (by omega))]
    simp only [zero_add, hdl]
  · intro j hj hover hprev
    unfold decision_step
    rw [exec_loop_first_over outcomes seq.dropLast j 0 0 (by omega)
      (by rw [zero_add]; exact hover)
      (fun i hi => by rw [zero_add]; exact hprev i hi)]
    simp only [zero_add]
  · intro n m choose hlen t ht
    unfold sample_action_sequence at ht
    rw [List.getLast?_map] at ht
    cases hg : (sample_trace n m choose).getLast? with
    | none =>
      rw [hg] at ht
      exact Option.noConfusion ht
    | some s =>
      rw [hg, Option.map_some'] at ht
      rw [Option.some.injEq] at ht
      have hmem : s ∈ sample_trace n m choose := by
        obtain ⟨h9, h10⟩ := List.mem_getLast?_eq_getLast (Option.mem_def.mpr hg)
        rw [h10]
        exact List.getLast_mem h9
      obtain ⟨c, hc⟩ := sample_aux_token_onehot n m choose m 0 (init_allowed n)
        s hmem
      have hdis := sample_aux_getLast_stop n m choose m 0 (init_allowed n)
        (by omega) s hg
      have hlen2 : (sample_trace n m choose).length
          = (sample_action_sequence n m choose).length := by
        unfold sample_action_sequence
        rw [List.length_map]
      rcases hdis with hstop | hlm
      · have hcl : c = Fin.last n := by
          by_contra hcl
          apply hstop
          rw [hc]
          unfold onehot
          rw [if_neg (show ¬(Fin.last n = c) from fun hq => hcl hq.symm)]
        rw [← ht, hc, hcl]
      · rw [zero_add] at hlm
        unfold sample_trace at hlen2
        omega

/-- Witness for `primitive_execution_characterization`: three actions, no
episode end — both executed, rewards summed. -/
theorem primitive_execution_characterization_witness :
    decision_step (fun _ => ((2 : ℚ), false)) ([0, 0, 0] : List ℕ)
      = (4, false, 2) := by
  have h := primitive_execution_characterization
    (fun _ => ((2 : ℚ), false)) ([0, 0, 0] : List ℕ)
  have h2 := h.2.1 (fun j _ => rfl)
  rw [h2]
  norm_num

end TRL
